import Mathlib

/-!
A shallow embedding of the in-memory file system library (src/lib.rs) and a
verification of its documented behaviour.

Modelling conventions:
* Calls of the system clock are modelled by an explicit argument `now : Nat`
  passed to every operation that reads the clock.
* Byte vectors are modelled as `List Nat`.
* The hash map from child name to node is modelled as an association list:
  `insertNode` replaces an existing key in place (and appends otherwise),
  `removeNode` deletes a key, `getNode` looks one up.  Key sets stay
  duplicate-free under these operations, matching map semantics; iteration
  order of the model is the list order (the map's order is unspecified).
* Fallible results are `Except String T`.  Operations taking the store by
  mutable reference return the resulting store as the second component of a
  pair; state changes made before an early error return are kept, exactly as
  in the source.
-/

namespace InMemoryFS

structure Permissions where
  read : Bool
  write : Bool
  execute : Bool

structure Metadata where
  created_at : Nat
  modified_at : Nat
  accessed_at : Nat
  size : Nat
  permissions : Permissions
  owner : String
  group : String
  is_read_only : Bool
  is_hidden : Bool
  mime_type : String
  tags : List String

inductive FSNode where
  | file (name : String) (content : List Nat) (metadata : Metadata)
  | dir (name : String) (nodes : List (String × FSNode)) (metadata : Metadata)

/-- Metadata::update_accessed (src/lib.rs lines 81-83). -/
def Metadata.update_accessed (m : Metadata) (now : Nat) : Metadata :=
  { m with accessed_at := now }

/-- Metadata::update_modified (src/lib.rs lines 85-87). -/
def Metadata.update_modified (m : Metadata) (now : Nat) : Metadata :=
  { m with modified_at := now }

/-- Metadata::default (src/lib.rs lines 378-397). -/
def Metadata.default (now : Nat) : Metadata :=
  { created_at := now, modified_at := now, accessed_at := now, size := 0,
    permissions := { read := true, write := true, execute := false },
    owner := "root", group := "root", is_read_only := false, is_hidden := false,
    mime_type := "text/plain", tags := [] }

/-- FSNode::metadata, read side (src/lib.rs lines 400-405). -/
def FSNode.metadataOf : FSNode → Metadata
  | .file _ _ m => m
  | .dir _ _ m => m

/-- FSNode::metadata, write side (src/lib.rs lines 400-405). -/
def FSNode.withMetadata : FSNode → Metadata → FSNode
  | .file n c _, m => .file n c m
  | .dir n ns _, m => .dir n ns m

/-- The `name` field common to both node variants. -/
def FSNode.nameOf : FSNode → String
  | .file n _ _ => n
  | .dir n _ _ => n

/-- HashMap::get on the association-list model. -/
def getNode : List (String × FSNode) → String → Option FSNode
  | [], _ => none
  | (k, v) :: rest, key => if k = key then some v else getNode rest key

/-- HashMap::contains_key on the association-list model. -/
def containsKey (nodes : List (String × FSNode)) (key : String) : Bool :=
  (getNode nodes key).isSome

/-- HashMap::insert on the association-list model: replaces in place or appends. -/
def insertNode : List (String × FSNode) → String → FSNode → List (String × FSNode)
  | [], key, v => [(key, v)]
  | (k, w) :: rest, key, v =>
    if k = key then (key, v) :: rest else (k, w) :: insertNode rest key v

/-- HashMap::remove on the association-list model. -/
def removeNode : List (String × FSNode) → String → List (String × FSNode)
  | [], _ => []
  | (k, w) :: rest, key => if k = key then rest else (k, w) :: removeNode rest key

/-- HashMap::keys on the association-list model. -/
def keysOf (nodes : List (String × FSNode)) : List String :=
  nodes.map Prod.fst

/-- str::split on the separator character: cutting a character list at every
slash, producing (number of slashes + 1) pieces, some possibly empty. -/
def splitChars : List Char → List (List Char)
  | [] => [[]]
  | c :: rest =>
    if c = '/' then [] :: splitChars rest
    else
      match splitChars rest with
      | [] => [[c]]
      | g :: gs => (c :: g) :: gs

/-- path.split on slash followed by the non-empty filter, as done at the top of
every path-taking operation in the source. -/
def splitPath (path : String) : List String :=
  ((splitChars path.data).map (fun l => String.mk l)).filter (fun p => p != "")

/-- The store: one root directory (src/lib.rs lines 46-48), its three fields
inlined. -/
structure FileSystem where
  rootName : String
  rootNodes : List (String × FSNode)
  rootMetadata : Metadata

/-- FileSystem::new (src/lib.rs lines 51-77). -/
def FileSystem.new (now : Nat) : FileSystem :=
  { rootName := "/"
    rootNodes := []
    rootMetadata :=
      { created_at := now, modified_at := now, accessed_at := now, size := 0,
        permissions := { read := true, write := true, execute := false },
        owner := "root", group := "root", is_read_only := false,
        is_hidden := false, mime_type := "directory", tags := [] } }

/-- FileSystem::navigate_to_directory, read-only use (src/lib.rs lines
174-183): walk the components from the given child map, following only
directory nodes, and return the child map of the target directory. -/
def navigateToDirectory : List String → List (String × FSNode) →
    Except String (List (String × FSNode))
  | [], nodes => .ok nodes
  | part :: rest, nodes =>
    match getNode nodes part with
    | some (.dir _ sub _) => navigateToDirectory rest sub
    | _ => .error "Directory not found."

/-- FileSystem::navigate_to_directory, mutable use: walk the components,
apply the caller's block `f` to the target directory's child map, and write
the (possibly mutated) map back along the walked spine.  The first component
of `f`'s result is the operation's return value; mutations are kept even when
that value is an error, exactly as mutation through the returned mutable
reference behaves in the source. -/
def navigateUpdate (parts : List String) (nodes : List (String × FSNode))
    (f : List (String × FSNode) → Except String Unit × List (String × FSNode)) :
    Except String Unit × List (String × FSNode) :=
  match parts with
  | [] => f nodes
  | part :: rest =>
    match getNode nodes part with
    | some (.dir name sub md) =>
      let res := navigateUpdate rest sub f
      (res.1, insertNode nodes part (.dir name res.2 md))
    | _ => (.error "Directory not found.", nodes)

/-- FileSystem::find_node (src/lib.rs lines 185-190): split the path, take the
last component as the leaf name, resolve the remaining prefix through
navigate_to_directory, and return the resolved parent directory's child map
together with the leaf name.  The leaf itself is not looked up. -/
def findNode (fs : FileSystem) (path : String) :
    Except String (List (String × FSNode) × String) :=
  let parts := splitPath path
  match parts.getLast? with
  | none => .error "Invalid path."
  | some filename =>
    match navigateToDirectory parts.dropLast fs.rootNodes with
    | .ok nodes => .ok (nodes, filename)
    | .error e => .error e

/-- FileSystem::create (src/lib.rs lines 90-136). -/
def create (fs : FileSystem) (path : String) (content : Option (List Nat))
    (is_directory : Bool) (now : Nat) : Except String Unit × FileSystem :=
  let parts := splitPath path
  match parts.getLast? with
  | none => (.error "Invalid path provided.", fs)
  | some name =>
    let res := navigateUpdate parts.dropLast fs.rootNodes (fun nodes =>
      if containsKey nodes name then
        (.error "File or directory already exists.", nodes)
      else
        let metadata := Metadata.default now
        if is_directory then
          (.ok (), insertNode nodes name (.dir name [] metadata))
        else
          (.ok (), insertNode nodes name (.file name (content.getD []) metadata)))
    (res.1, { fs with rootNodes := res.2 })

/-- FileSystem::read_file (src/lib.rs lines 138-149): the accessed-timestamp
update is computed on a clone of the file's metadata and dropped; the store is
returned unchanged on every branch. -/
def read_file (fs : FileSystem) (path : String) (now : Nat) :
    Except String (List Nat) × FileSystem :=
  match findNode fs path with
  | .error e => (.error e, fs)
  | .ok (nodes, filename) =>
    match getNode nodes filename with
    | some (.file _ content md) =>
      let _metadata := Metadata.update_accessed md now
      (.ok content, fs)
    | some (.dir _ _ _) => (.error "Path points to a directory.", fs)
    | none => (.error "File not found.", fs)

/-- FileSystem::write_file (src/lib.rs lines 151-167): the parent directory's
child map is cloned (`dir.nodes.clone()`), the new content and modified
timestamp are written into the clone, and the clone is dropped; the store is
returned unchanged on every branch. -/
def write_file (fs : FileSystem) (path : String) (content : List Nat)
    (append : Bool) (now : Nat) : Except String Unit × FileSystem :=
  match findNode fs path with
  | .error e => (.error e, fs)
  | .ok (nodes, filename) =>
    let dir_node := nodes
    match getNode dir_node filename with
    | some (.file name c md) =>
      let c2 := if append then c ++ content else content
      let _dir_node2 :=
        insertNode dir_node filename (.file name c2 (Metadata.update_modified md now))
      (.ok (), fs)
    | some (.dir _ _ _) => (.error "Path points to a directory.", fs)
    | none => (.error "File not found.", fs)

/-- FileSystem::list_directory (src/lib.rs lines 169-172): returns the keys of
the child map produced by find_node, i.e. the children of the resolved PARENT
directory; the final path component is never looked up. -/
def list_directory (fs : FileSystem) (path : String) :
    Except String (List String) :=
  match findNode fs path with
  | .error e => .error e
  | .ok (nodes, _) => .ok (keysOf nodes)

/-- FileSystem::delete (src/lib.rs lines 192-216): the leaf is removed from
the parent BEFORE the emptiness check, so a delete of a non-empty directory
returns an error with the directory already removed. -/
def delete (fs : FileSystem) (path : String) : Except String Unit × FileSystem :=
  let parts := splitPath path
  match parts.getLast? with
  | none => (.error "Invalid path provided.", fs)
  | some name =>
    let res := navigateUpdate parts.dropLast fs.rootNodes (fun nodes =>
      match getNode nodes name with
      | some node =>
        let nodes2 := removeNode nodes name
        match node with
        | .dir _ sub _ =>
          if sub.isEmpty then (.ok (), nodes2)
          else (.error "Directory is not empty.", nodes2)
        | .file _ _ _ => (.ok (), nodes2)
      | none => (.error "File or directory not found.", nodes))
    (res.1, { fs with rootNodes := res.2 })

/-- FileSystem::update_file (src/lib.rs lines 218-241): like write_file it
mutates a clone of the parent's child map, which is dropped; it additionally
checks the stored write permission first. -/
def update_file (fs : FileSystem) (path : String) (content : List Nat)
    (append : Bool) (now : Nat) : Except String Unit × FileSystem :=
  match findNode fs path with
  | .error e => (.error e, fs)
  | .ok (nodes, filename) =>
    match getNode nodes filename with
    | some (.file name c md) =>
      if !md.permissions.write then (.error "Write permission denied.", fs)
      else
        let c2 := if append then c ++ content else content
        let _dir_nodes2 :=
          insertNode nodes filename (.file name c2 (Metadata.update_modified md now))
        (.ok (), fs)
    | _ => (.error "File not found.", fs)

/-- FileSystem::change_permissions (src/lib.rs lines 243-256): the new
permission triple and modified timestamp are written into a clone of the
parent's child map (`dir.nodes.clone().get_mut(...)`), which is dropped; the
store is returned unchanged on every branch. -/
def change_permissions (fs : FileSystem) (path : String)
    (permissions : Permissions) (now : Nat) : Except String Unit × FileSystem :=
  match findNode fs path with
  | .error e => (.error e, fs)
  | .ok (nodes, filename) =>
    match getNode nodes filename with
    | some node =>
      let _node2 := node.withMetadata
        (Metadata.update_modified { node.metadataOf with permissions := permissions } now)
      (.ok (), fs)
    | none => (.error "File or directory not found.", fs)

/-- FileSystem::search_by_tag_recursive (src/lib.rs lines 265-277): walk the
child map; a file whose tag list contains the tag contributes the string
parent-directory-name, slash, file-name; a directory is descended into. -/
def searchByTagList (tag : String) (dirName : String) :
    List (String × FSNode) → List String
  | [] => []
  | (_, node) :: rest =>
    (match node with
     | FSNode.file fname _ fmd =>
       if fmd.tags.contains tag then [dirName ++ "/" ++ fname] else []
     | FSNode.dir dname sub _ => searchByTagList tag dname sub)
    ++ searchByTagList tag dirName rest

/-- FileSystem::search_by_tag (src/lib.rs lines 258-262). -/
def search_by_tag (fs : FileSystem) (tag : String) :
    Except String (List String) :=
  .ok (searchByTagList tag fs.rootName fs.rootNodes)

/-- FileSystem::rename (src/lib.rs lines 305-328): the node is re-inserted
under the new key; its own `name` field is left as it was. -/
def rename (fs : FileSystem) (old_path : String) (new_name : String) :
    Except String Unit × FileSystem :=
  let parts := splitPath old_path
  match parts.getLast? with
  | none => (.error "Invalid path provided.", fs)
  | some old_name =>
    let res := navigateUpdate parts.dropLast fs.rootNodes (fun nodes =>
      match getNode nodes old_name with
      | none => (.error "File or directory not found.", nodes)
      | some node =>
        if containsKey nodes new_name then
          (.error "A file or directory with the new name already exists.", nodes)
        else
          (.ok (), insertNode (removeNode nodes old_name) new_name node))
    (res.1, { fs with rootNodes := res.2 })

/-- FileSystem::copy (src/lib.rs lines 330-356): the source leaf node is
looked up through find_node on the source path, then the FULL component list
of the target path is resolved through navigate_to_directory (no component is
stripped), and the clone is inserted there under the SOURCE leaf name; the
insert replaces any existing child of that name. -/
def copy (fs : FileSystem) (source_path : String) (target_path : String) :
    Except String Unit × FileSystem :=
  let source_parts := splitPath source_path
  let target_parts := splitPath target_path
  match source_parts.getLast? with
  | none => (.error "Invalid source path.", fs)
  | some file_name =>
    match findNode fs source_path with
    | .error e => (.error e, fs)
    | .ok (source_nodes, _) =>
      match getNode source_nodes file_name with
      | none => (.error "Source file or directory not found.", fs)
      | some node_to_clone =>
        let res := navigateUpdate target_parts fs.rootNodes (fun nodes =>
          (.ok (), insertNode nodes file_name node_to_clone))
        (res.1, { fs with rootNodes := res.2 })

/-! Specification-side definitions used to state the properties. -/

/-- The child map of a node: a directory's children, a file has none. -/
def FSNode.childrenOf : FSNode → List (String × FSNode)
  | .file _ _ _ => []
  | .dir _ sub _ => sub

/-- Insert a node under a key into the directory reached by following the
given component list, every component naming a directory.  Used to state
where copy places the clone. -/
def insertAt : List String → String → FSNode → List (String × FSNode) →
    Option (List (String × FSNode))
  | [], key, v, nodes => some (insertNode nodes key v)
  | part :: rest, key, v, nodes =>
    match getNode nodes part with
    | some (.dir name sub md) =>
      match insertAt rest key v sub with
      | some sub2 => some (insertNode nodes part (.dir name sub2 md))
      | none => none
    | _ => none

/-- Hereditary tree check: P holds of every binding of every directory. -/
def treeAll (P : String → FSNode → Bool) : List (String × FSNode) → Bool
  | [] => true
  | (k, node) :: rest =>
    P k node &&
    (match node with
     | FSNode.dir _ sub _ => treeAll P sub
     | FSNode.file _ _ _ => true) &&
    treeAll P rest

/-- The keys of one child map are pairwise distinct. -/
def nodupKeysB : List (String × FSNode) → Bool
  | [] => true
  | (k, _) :: rest => !(containsKey rest k) && nodupKeysB rest

/-- Every directory node has pairwise distinct child keys. -/
def dirKeysNodup : String → FSNode → Bool := fun _ node =>
  match node with
  | .dir _ sub _ => nodupKeysB sub
  | .file _ _ _ => true

/-- A stored node's own name field equals the key it is stored under. -/
def nameMatchesKey : String → FSNode → Bool := fun k node => node.nameOf == k

/-- A stored file's tag list is empty. -/
def fileTagsEmpty : String → FSNode → Bool := fun _ node =>
  match node with
  | .file _ _ md => md.tags.isEmpty
  | .dir _ _ _ => true

/-- Child names are unique at this level and within every directory below. -/
def uniqAll (nodes : List (String × FSNode)) : Bool :=
  nodupKeysB nodes && treeAll dirKeysNodup nodes

/-- Every stored node's name field equals its key, tree-wide. -/
def namesAll (nodes : List (String × FSNode)) : Bool :=
  treeAll nameMatchesKey nodes

/-- Every stored file has an empty tag list, tree-wide. -/
def tagsAll (nodes : List (String × FSNode)) : Bool :=
  treeAll fileTagsEmpty nodes

/-- Child names are unique within the root and within every directory. -/
def UniqueNames (fs : FileSystem) : Bool := uniqAll fs.rootNodes

/-- Every stored node's name field equals its key, tree-wide. -/
def NamesMatch (fs : FileSystem) : Bool := namesAll fs.rootNodes

/-- Every stored file has an empty tag list, tree-wide. -/
def NoTags (fs : FileSystem) : Bool := tagsAll fs.rootNodes

/-- States reachable from a fresh store through the public operations. -/
inductive Reachable : FileSystem → Prop where
  | new (now : Nat) : Reachable (FileSystem.new now)
  | create (fs : FileSystem) (path : String) (content : Option (List Nat))
      (is_directory : Bool) (now : Nat) :
      Reachable fs → Reachable (InMemoryFS.create fs path content is_directory now).2
  | delete (fs : FileSystem) (path : String) :
      Reachable fs → Reachable (InMemoryFS.delete fs path).2
  | rename (fs : FileSystem) (old_path new_name : String) :
      Reachable fs → Reachable (InMemoryFS.rename fs old_path new_name).2
  | copy (fs : FileSystem) (source_path target_path : String) :
      Reachable fs → Reachable (InMemoryFS.copy fs source_path target_path).2
  | write_file (fs : FileSystem) (path : String) (content : List Nat)
      (append : Bool) (now : Nat) :
      Reachable fs → Reachable (InMemoryFS.write_file fs path content append now).2
  | update_file (fs : FileSystem) (path : String) (content : List Nat)
      (append : Bool) (now : Nat) :
      Reachable fs → Reachable (InMemoryFS.update_file fs path content append now).2
  | change_permissions (fs : FileSystem) (path : String) (p : Permissions) (now : Nat) :
      Reachable fs → Reachable (InMemoryFS.change_permissions fs path p now).2
  | read_file (fs : FileSystem) (path : String) (now : Nat) :
      Reachable fs → Reachable (InMemoryFS.read_file fs path now).2

/-- States reachable through the public operations other than rename. -/
inductive ReachableNR : FileSystem → Prop where
  | new (now : Nat) : ReachableNR (FileSystem.new now)
  | create (fs : FileSystem) (path : String) (content : Option (List Nat))
      (is_directory : Bool) (now : Nat) :
      ReachableNR fs → ReachableNR (InMemoryFS.create fs path content is_directory now).2
  | delete (fs : FileSystem) (path : String) :
      ReachableNR fs → ReachableNR (InMemoryFS.delete fs path).2
  | copy (fs : FileSystem) (source_path target_path : String) :
      ReachableNR fs → ReachableNR (InMemoryFS.copy fs source_path target_path).2
  | write_file (fs : FileSystem) (path : String) (content : List Nat)
      (append : Bool) (now : Nat) :
      ReachableNR fs → ReachableNR (InMemoryFS.write_file fs path content append now).2
  | update_file (fs : FileSystem) (path : String) (content : List Nat)
      (append : Bool) (now : Nat) :
      ReachableNR fs → ReachableNR (InMemoryFS.update_file fs path content append now).2
  | change_permissions (fs : FileSystem) (path : String) (p : Permissions) (now : Nat) :
      ReachableNR fs → ReachableNR (InMemoryFS.change_permissions fs path p now).2
  | read_file (fs : FileSystem) (path : String) (now : Nat) :
      ReachableNR fs → ReachableNR (InMemoryFS.read_file fs path now).2

/-! Concrete stores used in the concrete-input theorems. -/

/-- A store holding directory d that contains file f with content 1. -/
def sampleFS : FileSystem :=
  (create (create (FileSystem.new 0) "/d" none true 0).2 "/d/f" (some [1]) false 0).2

/-- A store holding directories d and d e plus a file x with content 2. -/
def copySampleFS : FileSystem :=
  (create (create (create (FileSystem.new 0) "/d" none true 0).2
    "/d/e" none true 0).2 "/x" (some [2]) false 0).2

/-- A store holding directory d with file d x (content 1) and file x
(content 2) in the root. -/
def replaceSampleFS : FileSystem :=
  (create (create (create (FileSystem.new 0) "/d" none true 0).2
    "/d/x" (some [1]) false 0).2 "/x" (some [2]) false 0).2

/-- A store holding a single empty file a in the root. -/
def renameSampleFS : FileSystem :=
  (create (FileSystem.new 0) "/a" (some []) false 0).2

/-! Lemmas about the association-list map. -/

theorem getNode_insert_self (nodes : List (String × FSNode)) (k : String) (v : FSNode) :
    getNode (insertNode nodes k v) k = some v := by
  induction nodes with
  | nil => simp [insertNode, getNode]
  | cons head rest ih =>
    obtain ⟨k0, w⟩ := head
    by_cases h : k0 = k
    · simp [insertNode, h, getNode]
    · simp [insertNode, h, getNode, ih]

theorem getNode_insert_ne (nodes : List (String × FSNode)) (k k2 : String) (v : FSNode)
    (h : k ≠ k2) : getNode (insertNode nodes k v) k2 = getNode nodes k2 := by
  induction nodes with
  | nil => simp [insertNode, getNode, h]
  | cons head rest ih =>
    obtain ⟨k0, w⟩ := head
    by_cases h0 : k0 = k
    · subst h0; simp [insertNode, getNode, h]
    · simp [insertNode, h0, getNode, ih]

theorem insertNode_getNode_self (nodes : List (String × FSNode)) (k : String) (v : FSNode)
    (h : getNode nodes k = some v) : insertNode nodes k v = nodes := by
  induction nodes with
  | nil => simp [getNode] at h
  | cons head rest ih =>
    obtain ⟨k0, w⟩ := head
    by_cases h0 : k0 = k
    · subst h0
      simp [getNode] at h
      simp [insertNode, h]
    · simp [getNode, h0] at h
      simp [insertNode, h0, ih h]

theorem containsKey_insert_ne (nodes : List (String × FSNode)) (k k2 : String) (v : FSNode)
    (h : k ≠ k2) : containsKey (insertNode nodes k v) k2 = containsKey nodes k2 := by
  simp [containsKey, getNode_insert_ne nodes k k2 v h]

theorem containsKey_remove_imp (nodes : List (String × FSNode)) (k k2 : String)
    (h : containsKey (removeNode nodes k) k2 = true) : containsKey nodes k2 = true := by
  induction nodes with
  | nil => simpa [removeNode] using h
  | cons head rest ih =>
    obtain ⟨k0, w⟩ := head
    by_cases h0 : k0 = k
    · subst h0
      simp [removeNode] at h
      by_cases h2 : k0 = k2
      · simp [containsKey, getNode, h2]
      · simpa [containsKey, getNode, h2] using h
    · simp [removeNode, h0] at h
      by_cases h2 : k0 = k2
      · simp [containsKey, getNode, h2]
      · simp [containsKey, getNode, h2] at h ⊢
        exact ih (by simpa [containsKey, getNode, h2] using h)

theorem nodupKeysB_insert (nodes : List (String × FSNode)) (k : String) (v : FSNode)
    (h : nodupKeysB nodes = true) : nodupKeysB (insertNode nodes k v) = true := by
  induction nodes with
  | nil => simp [insertNode, nodupKeysB, containsKey, getNode]
  | cons head rest ih =>
    obtain ⟨k0, w⟩ := head
    simp [nodupKeysB, Bool.and_eq_true] at h
    by_cases h0 : k0 = k
    · subst h0
      simp [insertNode, nodupKeysB, Bool.and_eq_true]
      exact ⟨h.1, h.2⟩
    · simp [insertNode, h0, nodupKeysB, Bool.and_eq_true]
      refine ⟨?_, ih h.2⟩
      rw [containsKey_insert_ne rest k k0 v (fun hkk => h0 hkk.symm)]
      exact h.1

theorem nodupKeysB_remove (nodes : List (String × FSNode)) (k : String)
    (h : nodupKeysB nodes = true) : nodupKeysB (removeNode nodes k) = true := by
  induction nodes with
  | nil => simpa [removeNode] using h
  | cons head rest ih =>
    obtain ⟨k0, w⟩ := head
    simp [nodupKeysB, Bool.and_eq_true] at h
    by_cases h0 : k0 = k
    · subst h0; simpa [removeNode] using h.2
    · simp [removeNode, h0, nodupKeysB, Bool.and_eq_true]
      refine ⟨?_, ih h.2⟩
      cases hc : containsKey (removeNode rest k) k0 with
      | false => rfl
      | true => exact absurd (containsKey_remove_imp rest k k0 hc) (by simp [h.1])

/-! Lemmas about the hereditary tree check. -/

theorem treeAll_cons (P : String → FSNode → Bool) (k : String) (v : FSNode)
    (rest : List (String × FSNode)) :
    treeAll P ((k, v) :: rest) =
      (P k v && (treeAll P v.childrenOf && treeAll P rest)) := by
  cases v <;> simp [treeAll, FSNode.childrenOf, Bool.and_assoc]

theorem treeAll_getNode (P : String → FSNode → Bool) :
    ∀ (nodes : List (String × FSNode)) (k : String) (v : FSNode),
    treeAll P nodes = true → getNode nodes k = some v →
    P k v = true ∧ treeAll P v.childrenOf = true := by
  intro nodes
  induction nodes with
  | nil => intro k v h hg; simp [getNode] at hg
  | cons head rest ih =>
    intro k v h hg
    obtain ⟨k0, w⟩ := head
    rw [treeAll_cons] at h
    simp [Bool.and_eq_true] at h
    by_cases h0 : k0 = k
    · subst h0
      simp [getNode] at hg
      subst hg
      exact ⟨h.1, h.2.1⟩
    · simp [getNode, h0] at hg
      exact ih k v h.2.2 hg

theorem treeAll_insert (P : String → FSNode → Bool) :
    ∀ (nodes : List (String × FSNode)) (k : String) (v : FSNode),
    treeAll P nodes = true → P k v = true → treeAll P v.childrenOf = true →
    treeAll P (insertNode nodes k v) = true := by
  intro nodes
  induction nodes with
  | nil =>
    intro k v _ hp hc
    simp [insertNode, treeAll_cons, treeAll, Bool.and_eq_true, hp, hc]
  | cons head rest ih =>
    intro k v h hp hc
    obtain ⟨k0, w⟩ := head
    rw [treeAll_cons] at h
    simp [Bool.and_eq_true] at h
    by_cases h0 : k0 = k
    · subst h0
      simp [insertNode, treeAll_cons, Bool.and_eq_true, hp, hc, h.2.2]
    · simp [insertNode, h0, treeAll_cons, Bool.and_eq_true]
      exact ⟨h.1, h.2.1, ih k v h.2.2 hp hc⟩

theorem treeAll_remove (P : String → FSNode → Bool) :
    ∀ (nodes : List (String × FSNode)) (k : String),
    treeAll P nodes = true → treeAll P (removeNode nodes k) = true := by
  intro nodes
  induction nodes with
  | nil => intro k h; simpa [removeNode] using h
  | cons head rest ih =>
    intro k h
    obtain ⟨k0, w⟩ := head
    rw [treeAll_cons] at h
    simp [Bool.and_eq_true] at h
    by_cases h0 : k0 = k
    · subst h0; simpa [removeNode] using h.2.2
    · simp [removeNode, h0, treeAll_cons, Bool.and_eq_true]
      exact ⟨h.1, h.2.1, ih k h.2.2⟩

theorem treeAll_nav (P : String → FSNode → Bool) :
    ∀ (parts : List String) (nodes tn : List (String × FSNode)),
    treeAll P nodes = true → navigateToDirectory parts nodes = Except.ok tn →
    treeAll P tn = true := by
  intro parts
  induction parts with
  | nil =>
    intro nodes tn h hn
    simp [navigateToDirectory] at hn
    exact hn ▸ h
  | cons part rest ih =>
    intro nodes tn h hn
    rw [navigateToDirectory] at hn
    cases hg : getNode nodes part with
    | none => rw [hg] at hn; simp at hn
    | some node =>
      rw [hg] at hn
      cases node with
      | file n c m => simp at hn
      | dir n sub m =>
        have hsub := treeAll_getNode P nodes part (.dir n sub m) h hg
        simp [FSNode.childrenOf] at hsub
        exact ih sub tn hsub.2 hn

/-! Lemmas about navigation with write-back. -/

theorem navigateUpdate_inv (I : List (String × FSNode) → Bool)
    (hlook : ∀ nodes part name sub md, I nodes = true →
      getNode nodes part = some (.dir name sub md) → I sub = true)
    (hput : ∀ nodes part name sub md sub2, I nodes = true →
      getNode nodes part = some (.dir name sub md) → I sub2 = true →
      I (insertNode nodes part (.dir name sub2 md)) = true)
    (f : List (String × FSNode) → Except String Unit × List (String × FSNode))
    (hf : ∀ tn, I tn = true → I (f tn).2 = true) :
    ∀ (parts : List String) (nodes : List (String × FSNode)), I nodes = true →
    I (navigateUpdate parts nodes f).2 = true := by
  intro parts
  induction parts with
  | nil =>
    intro nodes h
    simpa [navigateUpdate] using hf nodes h
  | cons part rest ih =>
    intro nodes h
    rw [navigateUpdate]
    cases hg : getNode nodes part with
    | none => simpa using h
    | some node =>
      cases node with
      | file n c m => simpa using h
      | dir n sub m =>
        have hsub := hlook nodes part n sub m h hg
        have hsub2 := ih sub hsub
        simpa using hput nodes part n sub m _ h hg hsub2

theorem navigateUpdate_frame
    (f : List (String × FSNode) → Except String Unit × List (String × FSNode))
    (r : Except String Unit) :
    ∀ (parts : List String) (nodes tn : List (String × FSNode)),
    navigateToDirectory parts nodes = Except.ok tn → f tn = (r, tn) →
    navigateUpdate parts nodes f = (r, nodes) := by
  intro parts
  induction parts with
  | nil =>
    intro nodes tn hn hf
    simp [navigateToDirectory] at hn
    subst hn
    simpa [navigateUpdate] using hf
  | cons part rest ih =>
    intro nodes tn hn hf
    rw [navigateToDirectory] at hn
    rw [navigateUpdate]
    cases hg : getNode nodes part with
    | none => rw [hg] at hn; simp at hn
    | some node =>
      rw [hg] at hn
      cases node with
      | file n c m => simp at hn
      | dir n sub m =>
        have hrec := ih sub tn hn hf
        simp only [hrec]
        rw [insertNode_getNode_self nodes part (.dir n sub m) hg]

theorem navigateUpdate_insertAt (key : String) (v : FSNode) :
    ∀ (parts : List String) (nodes tn : List (String × FSNode)),
    navigateToDirectory parts nodes = Except.ok tn →
    (navigateUpdate parts nodes (fun ns => (Except.ok (), insertNode ns key v))).1 =
      Except.ok () ∧
    insertAt parts key v nodes =
      some (navigateUpdate parts nodes (fun ns => (Except.ok (), insertNode ns key v))).2 := by
  intro parts
  induction parts with
  | nil =>
    intro nodes tn _
    exact ⟨rfl, rfl⟩
  | cons part rest ih =>
    intro nodes tn hn
    rw [navigateToDirectory] at hn
    rw [navigateUpdate, insertAt]
    cases hg : getNode nodes part with
    | none => rw [hg] at hn; simp at hn
    | some node =>
      rw [hg] at hn
      cases node with
      | file n c m => simp at hn
      | dir n sub m =>
        have hrec := ih sub tn hn
        refine ⟨hrec.1, ?_⟩
        simp only [hrec.2]

/-! Lemmas about find_node and operations that never change the store. -/

theorem findNode_eq (fs : FileSystem) (path : String) (pre : List String)
    (leaf : String) (pn : List (String × FSNode))
    (hs : splitPath path = pre ++ [leaf])
    (hn : navigateToDirectory pre fs.rootNodes = Except.ok pn) :
    findNode fs path = Except.ok (pn, leaf) := by
  simp [findNode, hs, List.getLast?_concat, List.dropLast_concat, hn]

theorem findNode_treeAll (P : String → FSNode → Bool) (fs : FileSystem) (path : String)
    (nodes : List (String × FSNode)) (filename : String)
    (h : treeAll P fs.rootNodes = true)
    (hf : findNode fs path = Except.ok (nodes, filename)) : treeAll P nodes = true := by
  simp only [findNode] at hf
  cases hL : (splitPath path).getLast? with
  | none => rw [hL] at hf; simp at hf
  | some name =>
    rw [hL] at hf
    cases hn : navigateToDirectory (splitPath path).dropLast fs.rootNodes with
    | error e => simp [hn] at hf
    | ok tn =>
      simp [hn] at hf
      exact hf.1 ▸ treeAll_nav P (splitPath path).dropLast fs.rootNodes tn h hn

theorem read_file_state (fs : FileSystem) (path : String) (now : Nat) :
    (read_file fs path now).2 = fs := by
  unfold read_file
  cases findNode fs path with
  | error e => rfl
  | ok p =>
    obtain ⟨nodes, filename⟩ := p
    cases hg : getNode nodes filename with
    | none => simp [hg]
    | some node => cases node <;> simp [hg]

theorem write_file_state (fs : FileSystem) (path : String) (content : List Nat)
    (append : Bool) (now : Nat) : (write_file fs path content append now).2 = fs := by
  unfold write_file
  cases findNode fs path with
  | error e => rfl
  | ok p =>
    obtain ⟨nodes, filename⟩ := p
    cases hg : getNode nodes filename with
    | none => simp [hg]
    | some node => cases node <;> simp [hg]

theorem update_file_state (fs : FileSystem) (path : String) (content : List Nat)
    (append : Bool) (now : Nat) : (update_file fs path content append now).2 = fs := by
  unfold update_file
  cases findNode fs path with
  | error e => rfl
  | ok p =>
    obtain ⟨nodes, filename⟩ := p
    cases hg : getNode nodes filename with
    | none => simp [hg]
    | some node =>
      cases node with
      | dir n sub m => simp [hg]
      | file n c m =>
        by_cases hw : m.permissions.write <;> simp [hg, hw]

theorem change_permissions_state (fs : FileSystem) (path : String) (p : Permissions)
    (now : Nat) : (change_permissions fs path p now).2 = fs := by
  unfold change_permissions
  cases findNode fs path with
  | error e => rfl
  | ok q =>
    obtain ⟨nodes, filename⟩ := q
    cases hg : getNode nodes filename with
    | none => simp [hg]
    | some node => simp [hg]

/-! Closure of the three tree invariants under the map primitives. -/

theorem uniqAll_look (nodes : List (String × FSNode)) (part name : String)
    (sub : List (String × FSNode)) (md : Metadata) (h : uniqAll nodes = true)
    (hg : getNode nodes part = some (.dir name sub md)) : uniqAll sub = true := by
  simp [uniqAll, Bool.and_eq_true] at h
  have h3 := treeAll_getNode dirKeysNodup nodes part _ h.2 hg
  simp [dirKeysNodup, FSNode.childrenOf] at h3
  simp [uniqAll, Bool.and_eq_true]
  exact ⟨h3.1, h3.2⟩

theorem uniqAll_insertNode (nodes : List (String × FSNode)) (k : String) (v : FSNode)
    (h : uniqAll nodes = true) (h1 : dirKeysNodup k v = true)
    (h2 : treeAll dirKeysNodup v.childrenOf = true) :
    uniqAll (insertNode nodes k v) = true := by
  simp [uniqAll, Bool.and_eq_true] at h
  simp [uniqAll, Bool.and_eq_true]
  exact ⟨nodupKeysB_insert nodes k v h.1, treeAll_insert dirKeysNodup nodes k v h.2 h1 h2⟩

theorem uniqAll_removeNode (nodes : List (String × FSNode)) (k : String)
    (h : uniqAll nodes = true) : uniqAll (removeNode nodes k) = true := by
  simp [uniqAll, Bool.and_eq_true] at h
  simp [uniqAll, Bool.and_eq_true]
  exact ⟨nodupKeysB_remove nodes k h.1, treeAll_remove dirKeysNodup nodes k h.2⟩

theorem uniqAll_put (nodes : List (String × FSNode)) (part name : String)
    (sub : List (String × FSNode)) (md : Metadata) (sub2 : List (String × FSNode))
    (h : uniqAll nodes = true) (hg : getNode nodes part = some (.dir name sub md))
    (h2 : uniqAll sub2 = true) :
    uniqAll (insertNode nodes part (.dir name sub2 md)) = true := by
  simp [uniqAll, Bool.and_eq_true] at h2
  exact uniqAll_insertNode nodes part (.dir name sub2 md) h
    (by simp [dirKeysNodup, h2.1]) (by simp [FSNode.childrenOf, h2.2])

theorem namesAll_look (nodes : List (String × FSNode)) (part name : String)
    (sub : List (String × FSNode)) (md : Metadata) (h : namesAll nodes = true)
    (hg : getNode nodes part = some (.dir name sub md)) : namesAll sub = true := by
  have h3 := treeAll_getNode nameMatchesKey nodes part _ h hg
  simpa [namesAll, FSNode.childrenOf] using h3.2

theorem namesAll_insertNode (nodes : List (String × FSNode)) (k : String) (v : FSNode)
    (h : namesAll nodes = true) (h1 : nameMatchesKey k v = true)
    (h2 : treeAll nameMatchesKey v.childrenOf = true) :
    namesAll (insertNode nodes k v) = true :=
  treeAll_insert nameMatchesKey nodes k v h h1 h2

theorem namesAll_removeNode (nodes : List (String × FSNode)) (k : String)
    (h : namesAll nodes = true) : namesAll (removeNode nodes k) = true :=
  treeAll_remove nameMatchesKey nodes k h

theorem namesAll_put (nodes : List (String × FSNode)) (part name : String)
    (sub : List (String × FSNode)) (md : Metadata) (sub2 : List (String × FSNode))
    (h : namesAll nodes = true) (hg : getNode nodes part = some (.dir name sub md))
    (h2 : namesAll sub2 = true) :
    namesAll (insertNode nodes part (.dir name sub2 md)) = true := by
  have h3 := treeAll_getNode nameMatchesKey nodes part _ h hg
  exact namesAll_insertNode nodes part (.dir name sub2 md) h
    (by simpa [nameMatchesKey, FSNode.nameOf] using h3.1)
    (by simpa [FSNode.childrenOf] using h2)

theorem tagsAll_look (nodes : List (String × FSNode)) (part name : String)
    (sub : List (String × FSNode)) (md : Metadata) (h : tagsAll nodes = true)
    (hg : getNode nodes part = some (.dir name sub md)) : tagsAll sub = true := by
  have h3 := treeAll_getNode fileTagsEmpty nodes part _ h hg
  simpa [tagsAll, FSNode.childrenOf] using h3.2

theorem tagsAll_insertNode (nodes : List (String × FSNode)) (k : String) (v : FSNode)
    (h : tagsAll nodes = true) (h1 : fileTagsEmpty k v = true)
    (h2 : treeAll fileTagsEmpty v.childrenOf = true) :
    tagsAll (insertNode nodes k v) = true :=
  treeAll_insert fileTagsEmpty nodes k v h h1 h2

theorem tagsAll_removeNode (nodes : List (String × FSNode)) (k : String)
    (h : tagsAll nodes = true) : tagsAll (removeNode nodes k) = true :=
  treeAll_remove fileTagsEmpty nodes k h

theorem tagsAll_put (nodes : List (String × FSNode)) (part name : String)
    (sub : List (String × FSNode)) (md : Metadata) (sub2 : List (String × FSNode))
    (h : tagsAll nodes = true) (hg : getNode nodes part = some (.dir name sub md))
    (h2 : tagsAll sub2 = true) :
    tagsAll (insertNode nodes part (.dir name sub2 md)) = true :=
  tagsAll_insertNode nodes part (.dir name sub2 md) h (by simp [fileTagsEmpty])
    (by simpa [FSNode.childrenOf] using h2)

/-! Preservation of an invariant by each mutating operation. -/

theorem create_pres (I : List (String × FSNode) → Bool)
    (hlook : ∀ nodes part name sub md, I nodes = true →
      getNode nodes part = some (.dir name sub md) → I sub = true)
    (hput : ∀ nodes part name sub md sub2, I nodes = true →
      getNode nodes part = some (.dir name sub md) → I sub2 = true →
      I (insertNode nodes part (.dir name sub2 md)) = true)
    (hfile : ∀ tn name c now2, I tn = true →
      I (insertNode tn name (.file name c (Metadata.default now2))) = true)
    (hdir : ∀ tn name now2, I tn = true →
      I (insertNode tn name (.dir name [] (Metadata.default now2))) = true)
    (fs : FileSystem) (path : String) (content : Option (List Nat))
    (is_directory : Bool) (now : Nat) (h : I fs.rootNodes = true) :
    I (create fs path content is_directory now).2.rootNodes = true := by
  simp only [create]
  split
  · exact h
  · dsimp only
    refine navigateUpdate_inv I hlook hput _ ?_ _ fs.rootNodes h
    intro tn htn
    dsimp only
    split
    · exact htn
    · split
      · exact hdir tn _ now htn
      · exact hfile tn _ _ now htn

theorem delete_pres (I : List (String × FSNode) → Bool)
    (hlook : ∀ nodes part name sub md, I nodes = true →
      getNode nodes part = some (.dir name sub md) → I sub = true)
    (hput : ∀ nodes part name sub md sub2, I nodes = true →
      getNode nodes part = some (.dir name sub md) → I sub2 = true →
      I (insertNode nodes part (.dir name sub2 md)) = true)
    (hrem : ∀ tn k, I tn = true → I (removeNode tn k) = true)
    (fs : FileSystem) (path : String) (h : I fs.rootNodes = true) :
    I (delete fs path).2.rootNodes = true := by
  simp only [delete]
  split
  · exact h
  · dsimp only
    refine navigateUpdate_inv I hlook hput _ ?_ _ fs.rootNodes h
    intro tn htn
    dsimp only
    split
    · split
      · split
        · exact hrem tn _ htn
        · exact hrem tn _ htn
      · exact hrem tn _ htn
    · exact htn

theorem rename_pres (I : List (String × FSNode) → Bool)
    (hlook : ∀ nodes part name sub md, I nodes = true →
      getNode nodes part = some (.dir name sub md) → I sub = true)
    (hput : ∀ nodes part name sub md sub2, I nodes = true →
      getNode nodes part = some (.dir name sub md) → I sub2 = true →
      I (insertNode nodes part (.dir name sub2 md)) = true)
    (hmv : ∀ tn o n node, I tn = true → getNode tn o = some node →
      I (insertNode (removeNode tn o) n node) = true)
    (fs : FileSystem) (old_path new_name : String) (h : I fs.rootNodes = true) :
    I (rename fs old_path new_name).2.rootNodes = true := by
  simp only [rename]
  split
  · exact h
  · dsimp only
    refine navigateUpdate_inv I hlook hput _ ?_ _ fs.rootNodes h
    intro tn htn
    dsimp only
    split
    · exact htn
    · rename_i node hgo
      split
      · exact htn
      · exact hmv tn _ _ node htn hgo

theorem copy_pres (I : List (String × FSNode) → Bool) (P : String → FSNode → Bool)
    (hlook : ∀ nodes part name sub md, I nodes = true →
      getNode nodes part = some (.dir name sub md) → I sub = true)
    (hput : ∀ nodes part name sub md sub2, I nodes = true →
      getNode nodes part = some (.dir name sub md) → I sub2 = true →
      I (insertNode nodes part (.dir name sub2 md)) = true)
    (hIP : ∀ ns, I ns = true → treeAll P ns = true)
    (hins : ∀ tn k v, I tn = true → P k v = true → treeAll P v.childrenOf = true →
      I (insertNode tn k v) = true)
    (fs : FileSystem) (source_path target_path : String)
    (h : I fs.rootNodes = true) :
    I (copy fs source_path target_path).2.rootNodes = true := by
  simp only [copy]
  split
  · exact h
  · rename_i file_name hlast
    split
    · exact h
    · rename_i source_nodes other hfind
      split
      · exact h
      · rename_i node_to_clone hget
        dsimp only
        refine navigateUpdate_inv I hlook hput _ ?_ _ fs.rootNodes h
        intro tn htn
        dsimp only
        have hs := findNode_treeAll P fs source_path source_nodes other (hIP _ h) hfind
        have hx := treeAll_getNode P source_nodes file_name node_to_clone hs hget
        exact hins tn file_name node_to_clone htn hx.1 hx.2

/-! The invariants hold in every reachable state. -/

theorem goodFS (fs : FileSystem) (h : Reachable fs) :
    uniqAll fs.rootNodes = true ∧ tagsAll fs.rootNodes = true := by
  induction h with
  | new now =>
    exact ⟨by simp [uniqAll, nodupKeysB, treeAll, FileSystem.new],
      by simp [tagsAll, treeAll, FileSystem.new]⟩
  | create fs path content is_directory now _ ih =>
    exact ⟨create_pres uniqAll uniqAll_look uniqAll_put
        (fun tn name c now2 htn => uniqAll_insertNode tn name _ htn
          (by simp [dirKeysNodup]) (by simp [FSNode.childrenOf, treeAll]))
        (fun tn name now2 htn => uniqAll_insertNode tn name _ htn
          (by simp [dirKeysNodup, nodupKeysB]) (by simp [FSNode.childrenOf, treeAll]))
        fs path content is_directory now ih.1,
      create_pres tagsAll tagsAll_look tagsAll_put
        (fun tn name c now2 htn => tagsAll_insertNode tn name _ htn
          (by simp [fileTagsEmpty, Metadata.default]) (by simp [FSNode.childrenOf, treeAll]))
        (fun tn name now2 htn => tagsAll_insertNode tn name _ htn
          (by simp [fileTagsEmpty]) (by simp [FSNode.childrenOf, treeAll]))
        fs path content is_directory now ih.2⟩
  | delete fs path _ ih =>
    exact ⟨delete_pres uniqAll uniqAll_look uniqAll_put uniqAll_removeNode fs path ih.1,
      delete_pres tagsAll tagsAll_look tagsAll_put tagsAll_removeNode fs path ih.2⟩
  | rename fs old_path new_name _ ih =>
    refine ⟨rename_pres uniqAll uniqAll_look uniqAll_put ?_ fs old_path new_name ih.1,
      rename_pres tagsAll tagsAll_look tagsAll_put ?_ fs old_path new_name ih.2⟩
    · intro tn o n node htn hgo
      have htree : treeAll dirKeysNodup tn = true := by
        simp [uniqAll, Bool.and_eq_true] at htn
        exact htn.2
      have hx := treeAll_getNode dirKeysNodup tn o node htree hgo
      exact uniqAll_insertNode _ n node (uniqAll_removeNode tn o htn) hx.1 hx.2
    · intro tn o n node htn hgo
      have hx := treeAll_getNode fileTagsEmpty tn o node htn hgo
      exact tagsAll_insertNode _ n node (tagsAll_removeNode tn o htn) hx.1 hx.2
  | copy fs source_path target_path _ ih =>
    refine ⟨copy_pres uniqAll dirKeysNodup uniqAll_look uniqAll_put ?_ ?_
        fs source_path target_path ih.1,
      copy_pres tagsAll fileTagsEmpty tagsAll_look tagsAll_put ?_ ?_
        fs source_path target_path ih.2⟩
    · intro ns hns
      simp [uniqAll, Bool.and_eq_true] at hns
      exact hns.2
    · intro tn k v htn h1 h2
      exact uniqAll_insertNode tn k v htn h1 h2
    · intro ns hns
      exact hns
    · intro tn k v htn h1 h2
      exact tagsAll_insertNode tn k v htn h1 h2
  | write_file fs path content append now _ ih => rw [write_file_state]; exact ih
  | update_file fs path content append now _ ih => rw [update_file_state]; exact ih
  | change_permissions fs path p now _ ih => rw [change_permissions_state]; exact ih
  | read_file fs path now _ ih => rw [read_file_state]; exact ih

theorem namesFS (fs : FileSystem) (h : ReachableNR fs) : namesAll fs.rootNodes = true := by
  induction h with
  | new now => simp [namesAll, treeAll, FileSystem.new]
  | create fs path content is_directory now _ ih =>
    exact create_pres namesAll namesAll_look namesAll_put
      (fun tn name c now2 htn => namesAll_insertNode tn name _ htn
        (by simp [nameMatchesKey, FSNode.nameOf]) (by simp [FSNode.childrenOf, treeAll]))
      (fun tn name now2 htn => namesAll_insertNode tn name _ htn
        (by simp [nameMatchesKey, FSNode.nameOf]) (by simp [FSNode.childrenOf, treeAll]))
      fs path content is_directory now ih
  | delete fs path _ ih =>
    exact delete_pres namesAll namesAll_look namesAll_put namesAll_removeNode fs path ih
  | copy fs source_path target_path _ ih =>
    exact copy_pres namesAll nameMatchesKey namesAll_look namesAll_put (fun ns hns => hns)
      (fun tn k v htn h1 h2 => namesAll_insertNode tn k v htn h1 h2)
      fs source_path target_path ih
  | write_file fs path content append now _ ih => rw [write_file_state]; exact ih
  | update_file fs path content append now _ ih => rw [update_file_state]; exact ih
  | change_permissions fs path p now _ ih => rw [change_permissions_state]; exact ih
  | read_file fs path now _ ih => rw [read_file_state]; exact ih

theorem searchByTagList_empty (tag dirName : String) (nodes : List (String × FSNode)) :
    treeAll fileTagsEmpty nodes = true → searchByTagList tag dirName nodes = [] := by
  refine searchByTagList.induct tag
    (fun d ns => treeAll fileTagsEmpty ns = true → searchByTagList tag d ns = [])
    ?_ ?_ dirName nodes
  · intro d _
    simp [searchByTagList]
  · intro d k node rest hnode ihrest h
    rw [treeAll_cons] at h
    simp only [Bool.and_eq_true] at h
    cases node with
    | file fname fc fmd =>
      have htags : fmd.tags = [] := by
        have h1 := h.1
        simp [fileTagsEmpty, List.isEmpty_iff] at h1
        exact h1
      rw [searchByTagList]
      simp [htags, ihrest h.2.2]
    | dir dname sub dmd =>
      rw [searchByTagList]
      simp [hnode h.2.1, ihrest h.2.2]

/-! The claims. -/

/-- Claim C1.  The claim states that write_file then read_file round-trips.
The code instead mutates a clone of the parent's child map and drops it: on a
store holding file d f with content 1, writing content 2 reports success,
leaves the store unchanged, and a subsequent read still returns 1. -/
theorem c1_write_then_read_returns_old_content :
    (write_file sampleFS "/d/f" [2] false 3).1 = Except.ok () ∧
    (write_file sampleFS "/d/f" [2] false 3).2 = sampleFS ∧
    (read_file (write_file sampleFS "/d/f" [2] false 3).2 "/d/f" 4).1 = Except.ok [1] :=
  ⟨rfl, rfl, rfl⟩

/-- Claim C2.  The claim states that delete on a non-empty directory fails
with DirectoryNotEmpty leaving the tree unchanged.  The code removes the
directory from its parent BEFORE the emptiness check and never reinserts it:
the failed call destroys the whole subtree.  The second half of the claim
(children first, then the directory, succeeds) does hold and is evaluated in
the last two conjuncts. -/
theorem c2_delete_nonempty_destroys_subtree :
    (delete sampleFS "/d").1 = Except.error "Directory is not empty." ∧
    containsKey (delete sampleFS "/d").2.rootNodes "d" = false ∧
    (delete sampleFS "/d/f").1 = Except.ok () ∧
    (delete (delete sampleFS "/d/f").2 "/d").1 = Except.ok () :=
  ⟨rfl, rfl, rfl, rfl⟩

/-- Claim C3.  The claim states that after change_permissions revokes write
permission, update_file fails with PermissionDenied while write_file still
succeeds.  change_permissions writes the new triple into a clone of the
parent's child map and drops it, so the revocation is never stored and
update_file still succeeds. -/
theorem c3_revoked_write_permission_not_enforced :
    (change_permissions sampleFS "/d/f" ⟨true, false, false⟩ 3).1 = Except.ok () ∧
    (change_permissions sampleFS "/d/f" ⟨true, false, false⟩ 3).2 = sampleFS ∧
    (update_file (change_permissions sampleFS "/d/f" ⟨true, false, false⟩ 3).2
      "/d/f" [7] false 4).1 = Except.ok () ∧
    (write_file (change_permissions sampleFS "/d/f" ⟨true, false, false⟩ 3).2
      "/d/f" [7] false 4).1 = Except.ok () :=
  ⟨rfl, rfl, rfl, rfl⟩

/-- Claim C4.  The claim states that list_directory returns the child names
of the directory the path resolves to, failing NotFound or IsADirectory
otherwise.  The code feeds the path through find_node, which resolves only
the PARENT of the final component and never looks the leaf up: on the store
holding directory d with child f, listing the directory d returns the root's
children, listing the file d f returns d's children with no IsADirectory
failure, and listing a missing name returns the root's children with no
NotFound failure. -/
theorem c4_list_directory_returns_parent_children :
    list_directory sampleFS "/d" = Except.ok ["d"] ∧
    list_directory sampleFS "/d/f" = Except.ok ["f"] ∧
    list_directory sampleFS "/missing" = Except.ok ["d"] :=
  ⟨rfl, rfl, rfl⟩

/-- Claim C5, counterexample.  The claim states that copy resolves the target
path with its last component stripped off.  With directories d and d e and a
root file x, copying x to the path d e would then place the clone in d; the
code instead resolves the FULL target path and places the clone in d e, so d
has no child x while d e does. -/
theorem c5_copy_target_not_stripped_cex :
    (copy copySampleFS "/x" "/d/e").1 = Except.ok () ∧
    (navigateToDirectory ["d"] (copy copySampleFS "/x" "/d/e").2.rootNodes).map
      (fun ns => containsKey ns "x") = Except.ok false ∧
    (navigateToDirectory ["d", "e"] (copy copySampleFS "/x" "/d/e").2.rootNodes).map
      (fun ns => containsKey ns "x") = Except.ok true :=
  ⟨rfl, rfl, rfl⟩

/-- Claim C5, amended.  copy inserts the deep clone of the source node, keyed
by the SOURCE leaf name, into the directory obtained by resolving the FULL
component list of the target path (no component stripped): whenever the
source resolves and every target component names a directory, the call
succeeds and the resulting tree is the input tree with the clone inserted at
the full target path. -/
theorem c5_copy_inserts_at_full_target (fs : FileSystem) (sp tp : String)
    (pre : List String) (leaf : String) (pn : List (String × FSNode)) (node : FSNode)
    (tn : List (String × FSNode))
    (hs : splitPath sp = pre ++ [leaf])
    (hn : navigateToDirectory pre fs.rootNodes = Except.ok pn)
    (hg : getNode pn leaf = some node)
    (ht : navigateToDirectory (splitPath tp) fs.rootNodes = Except.ok tn) :
    (copy fs sp tp).1 = Except.ok () ∧
    insertAt (splitPath tp) leaf node fs.rootNodes = some (copy fs sp tp).2.rootNodes := by
  have hfind := findNode_eq fs sp pre leaf pn hs hn
  have hnav := navigateUpdate_insertAt leaf node (splitPath tp) fs.rootNodes tn ht
  simp only [copy, hs, List.getLast?_concat, hfind, hg]
  exact ⟨hnav.1, hnav.2⟩

/-- Claim C5, witness for the amended theorem at a concrete input. -/
theorem c5_copy_inserts_at_full_target_witness :
    (copy copySampleFS "/x" "/d/e").1 = Except.ok () ∧
    insertAt ["d", "e"] "x" (FSNode.file "x" [2] (Metadata.default 0)) copySampleFS.rootNodes =
      some (copy copySampleFS "/x" "/d/e").2.rootNodes :=
  c5_copy_inserts_at_full_target copySampleFS "/x" "/d/e" [] "x" copySampleFS.rootNodes
    (FSNode.file "x" [2] (Metadata.default 0)) [] rfl rfl rfl rfl

/-- Claim C6, counterexample.  The claim states that a second copy whose
destination name already exists fails with AlreadyExists.  On a reachable
store holding file d x with content 1 and root file x with content 2,
copying x into d reports success and silently replaces the existing child:
reading d x afterwards yields 2 instead of 1. -/
theorem c6_copy_replaces_existing_cex :
    Reachable replaceSampleFS ∧
    (copy replaceSampleFS "/x" "/d").1 = Except.ok () ∧
    (read_file replaceSampleFS "/d/x" 9).1 = Except.ok [1] ∧
    (read_file (copy replaceSampleFS "/x" "/d").2 "/d/x" 9).1 = Except.ok [2] :=
  ⟨Reachable.create _ "/x" (some [2]) false 0
      (Reachable.create _ "/d/x" (some [1]) false 0
        (Reachable.create _ "/d" none true 0 (Reachable.new 0))),
    rfl, rfl, rfl⟩

/-- Claim C6, amended.  In every reachable state child names are unique
within the root and within every directory; a second create whose leaf name
already exists fails with AlreadyExists and leaves the store unchanged, and
likewise a rename whose destination name already exists; copy, however,
silently replaces the existing child (see the counterexample). -/
theorem c6_unique_names_create_rename_guarded :
    (∀ fs, Reachable fs → UniqueNames fs = true) ∧
    (∀ (fs : FileSystem) (path : String) (content : Option (List Nat))
      (is_directory : Bool) (now : Nat) (pre : List String) (leaf : String)
      (pn : List (String × FSNode)),
      splitPath path = pre ++ [leaf] →
      navigateToDirectory pre fs.rootNodes = Except.ok pn →
      containsKey pn leaf = true →
      create fs path content is_directory now =
        (Except.error "File or directory already exists.", fs)) ∧
    (∀ (fs : FileSystem) (old_path new_name : String) (pre : List String)
      (old_name : String) (pn : List (String × FSNode)) (node : FSNode),
      splitPath old_path = pre ++ [old_name] →
      navigateToDirectory pre fs.rootNodes = Except.ok pn →
      getNode pn old_name = some node →
      containsKey pn new_name = true →
      rename fs old_path new_name =
        (Except.error "A file or directory with the new name already exists.", fs)) := by
  refine ⟨fun fs h => (goodFS fs h).1, ?_, ?_⟩
  · intro fs path content is_directory now pre leaf pn hs hn hc
    have hfr := navigateUpdate_frame
      (fun nodes =>
        if containsKey nodes leaf then
          (Except.error "File or directory already exists.", nodes)
        else
          let metadata := Metadata.default now
          if is_directory then
            (Except.ok (), insertNode nodes leaf (.dir leaf [] metadata))
          else
            (Except.ok (), insertNode nodes leaf (.file leaf (content.getD []) metadata)))
      (Except.error "File or directory already exists.")
      pre fs.rootNodes pn hn (by simp [hc])
    simp [create, hs, List.getLast?_concat, List.dropLast_concat, hfr]
  · intro fs old_path new_name pre old_name pn node hs hn hgo hc
    have hfr := navigateUpdate_frame
      (fun nodes =>
        match getNode nodes old_name with
        | none => (Except.error "File or directory not found.", nodes)
        | some node =>
          if containsKey nodes new_name then
            (Except.error "A file or directory with the new name already exists.", nodes)
          else
            (Except.ok (), insertNode (removeNode nodes old_name) new_name node))
      (Except.error "A file or directory with the new name already exists.")
      pre fs.rootNodes pn hn (by simp [hgo, hc])
    simp [rename, hs, List.getLast?_concat, List.dropLast_concat, hfr]

/-- Claim C6, witness for the amended theorem at concrete inputs. -/
theorem c6_unique_names_create_rename_guarded_witness :
    UniqueNames sampleFS = true ∧
    create sampleFS "/d/f" none false 1 =
      (Except.error "File or directory already exists.", sampleFS) ∧
    rename sampleFS "/d/f" "f" =
      (Except.error "A file or directory with the new name already exists.", sampleFS) :=
  ⟨c6_unique_names_create_rename_guarded.1 sampleFS
      (Reachable.create _ "/d/f" (some [1]) false 0
        (Reachable.create _ "/d" none true 0 (Reachable.new 0))),
    c6_unique_names_create_rename_guarded.2.1 sampleFS "/d/f" none false 1 ["d"] "f"
      [("f", FSNode.file "f" [1] (Metadata.default 0))] rfl rfl rfl,
    c6_unique_names_create_rename_guarded.2.2 sampleFS "/d/f" "f" ["d"] "f"
      [("f", FSNode.file "f" [1] (Metadata.default 0))]
      (FSNode.file "f" [1] (Metadata.default 0)) rfl rfl rfl rfl⟩

/-- Claim C7, counterexample.  The claim states that in every reachable state
a stored node's name field equals its key.  rename re-keys the node without
touching its name field: after renaming the root file a to b, the node stored
under key b still carries name a. -/
theorem c7_rename_breaks_name_key_cex :
    Reachable (rename renameSampleFS "/a" "b").2 ∧
    (rename renameSampleFS "/a" "b").1 = Except.ok () ∧
    getNode (rename renameSampleFS "/a" "b").2.rootNodes "b" =
      some (FSNode.file "a" [] (Metadata.default 0)) ∧
    FSNode.nameOf (FSNode.file "a" [] (Metadata.default 0)) ≠ "b" :=
  ⟨Reachable.rename _ "/a" "b"
      (Reachable.create _ "/a" (some []) false 0 (Reachable.new 0)),
    rfl, rfl, by decide⟩

/-- Claim C7, amended.  The name-equals-key invariant does hold in every
state reachable through the public operations other than rename (create,
delete, copy, write_file, update_file, change_permissions, read_file);
rename is the sole operation that breaks it. -/
theorem c7_names_match_without_rename (fs : FileSystem) (h : ReachableNR fs) :
    NamesMatch fs = true :=
  namesFS fs h

/-- Claim C7, witness for the amended theorem at a concrete reachable store. -/
theorem c7_names_match_without_rename_witness : NamesMatch sampleFS = true :=
  c7_names_match_without_rename sampleFS
    (ReachableNR.create _ "/d/f" (some [1]) false 0
      (ReachableNR.create _ "/d" none true 0 (ReachableNR.new 0)))

/-- Claim C8.  The claim states that failures are idempotent: repeating a
failed call yields the same error.  delete on the non-empty directory d
fails with DirectoryNotEmpty but destroys the subtree, so the immediate
repetition of the same call on the state it left behind fails with the
different error NotFound. -/
theorem c8_failed_delete_not_idempotent :
    (delete sampleFS "/d").1 = Except.error "Directory is not empty." ∧
    (delete (delete sampleFS "/d").2 "/d").1 =
      Except.error "File or directory not found." :=
  ⟨rfl, rfl⟩

/-- Claim C9.  read_file never modifies the stored tree: the accessed
timestamp is computed on a detached copy of the file's metadata, and the
store returned is the input store on every control path. -/
theorem c9_read_file_leaves_store_unchanged (fs : FileSystem) (path : String) (now : Nat) :
    (read_file fs path now).2 = fs :=
  read_file_state fs path now

/-- Claim C10.  No public operation ever adds a tag: every node is created
with an empty tag list and no operation mutates tags, so in every reachable
state search_by_tag returns the empty list for every tag. -/
theorem c10_search_by_tag_always_empty (fs : FileSystem) (h : Reachable fs) (tag : String) :
    search_by_tag fs tag = Except.ok [] := by
  have hg := (goodFS fs h).2
  unfold search_by_tag
  rw [searchByTagList_empty tag fs.rootName fs.rootNodes hg]

/-- Claim C10, witness at a concrete reachable store and tag. -/
theorem c10_search_by_tag_always_empty_witness :
    search_by_tag sampleFS "important" = Except.ok [] :=
  c10_search_by_tag_always_empty sampleFS
    (Reachable.create _ "/d/f" (some [1]) false 0
      (Reachable.create _ "/d" none true 0 (Reachable.new 0))) "important"

end InMemoryFS
